import Mathlib

/-!
Verification development for the shard download pipeline of `img2dataset`
(`src/img2dataset/downloader.py`).

The Python source is shallowly embedded: byte buffers become `List Nat`,
header values and keys become `String` (manipulated through their `List Char`
data so that everything is executable and kernel-reducible), the network is
an oracle `Nat → HttpResult` giving the outcome of each HTTP attempt, and the
external collaborators (`Resizer`, `hashlib` digests, the EXIF parser, the
`SampleWriter`) are abstract function parameters of the configuration: the
per-row processor records its interactions with them as an ordered list of
effects.  Machine floats appear in the source only in
`math.ceil(math.log10(number_sample_per_shard))`; that expression is embedded
as the exact mathematical ceiling of the base-10 logarithm.
-/

/-- Bytes of an HTTP body or of an encoded image (`io.BytesIO` contents). -/
abbrev ByteData := List Nat

/-- Payload column values: the row tuples projected from the shard table.
A cell is a string, a list of optional URL strings, a null, or some other
opaque value (bbox lists and the like). -/
inductive PayloadValue where
  | vstr (s : String)
  | vlist (us : List (Option String))
  | vnone
  | vother (n : Nat)
  deriving DecidableEq, Repr

/-- Result of one `urllib` request in `download_image`: either the request /
read raised (network, timeout, DNS, HTTP error — carrying `str(err)`), or a
response arrived with its `X-Robots-Tag` header values and body. -/
inductive HttpResult where
  | exn (msg : String)
  | resp (headers : List (Option String)) (body : ByteData)
  deriving DecidableEq, Repr

/- In `HttpResult.resp`, a header entry `none` models an `X-Robots-Tag` value
whose parsing raises inside `is_disallowed`'s `try` block (the source logs it
and continues); `some v` is an ordinary string value. -/

/-! ### String helpers (embedding of the Python `str` operations used) -/

/-- Python `values.split(":", 1)`: split at the first colon, if any.  Returns
the part before the colon and, when a colon exists, the part after it. -/
def splitAtColon : List Char → List Char × Option (List Char)
  | [] => ([], none)
  | c :: cs =>
    if c = ':' then ([], some cs)
    else
      let r := splitAtColon cs
      (c :: r.1, r.2)

/-- Python `s.split(",")`: split at every comma. -/
def splitCommas : List Char → List (List Char)
  | [] => [[]]
  | c :: cs =>
    if c = ',' then [] :: splitCommas cs
    else
      match splitCommas cs with
      | [] => [[c]]
      | p :: ps => (c :: p) :: ps

/-- Python `s.strip()` (ASCII whitespace, as in the headers at issue). -/
def stripChars (l : List Char) : List Char :=
  ((l.dropWhile Char.isWhitespace).reverse.dropWhile Char.isWhitespace).reverse

/-- Python `s.lower()` on the character data. -/
def lowerChars (l : List Char) : List Char :=
  l.map Char.toLower

/-! ### Robots-tag filtering (`is_disallowed`, source lines 20–34) -/

/-- Parse one `X-Robots-Tag` header value the way `is_disallowed` does:
`uatoken_directives = values.split(":", 1)`;
`directives = [x.strip().lower() for x in uatoken_directives[-1].split(",")]`;
`ua_token = uatoken_directives[0].lower() if len(uatoken_directives) == 2 else None`.
Returns `(ua_token, directives)`. -/
def parseRobotsValue (v : String) : Option String × List String :=
  match splitAtColon v.data with
  | (whole, none) => (none, (splitCommas whole).map fun d => String.mk (lowerChars (stripChars d)))
  | (ua, some rest) =>
    (some (String.mk (lowerChars ua)), (splitCommas rest).map fun d => String.mk (lowerChars (stripChars d)))

/-- Does this parsed header apply and carry a disallowed directive?
Mirrors `(ua_token is None or ua_token == user_agent_token) and
any(x in disallowed_header_directives for x in directives)`.  (In Python a
string never compares equal to `None`, hence the `Option`-level equality.) -/
def robotsValueDisallows (userAgentToken : Option String) (disallowed : List String) (v : String) : Bool :=
  let p := parseRobotsValue v
  (p.1.isNone || p.1 == userAgentToken) && p.2.any fun d => disallowed.contains d

/-- Embedding of `is_disallowed(headers, user_agent_token, disallowed_header_directives)`:
walk all `X-Robots-Tag` values, return `True` at the first applicable value
with a disallowed directive; a value whose parsing raises (`none`) is skipped. -/
def is_disallowed : List (Option String) → Option String → List String → Bool
  | [], _, _ => false
  | none :: rest, ua, dis => is_disallowed rest ua dis
  | some v :: rest, ua, dis =>
    if robotsValueDisallows ua dis v then true else is_disallowed rest ua dis

/-- Canonical disallow message from `download_image`. -/
def robotsDisallowMsg : String := "Use of image disallowed by X-Robots-Tag directive"

/-- Embedding of `download_image(row, timeout, user_agent_token,
disallowed_header_directives)` (source lines 37–58), as a function of the
attempt's `HttpResult`.  Returns `(img_stream, error)` — the `key` component
is threaded unchanged by the source and is dropped here.  The robots check
runs only when the configured directive set is truthy (non-empty). -/
def download_image (r : HttpResult) (userAgentToken : Option String) (disallowed : List String) : Option ByteData × Option String :=
  match r with
  | .exn msg => (none, some msg)
  | .resp headers body =>
    if !disallowed.isEmpty && is_disallowed headers userAgentToken disallowed then
      (none, some robotsDisallowMsg)
    else
      (some body, none)

/-! ### Retry wrapper (`download_image_with_retry`, source lines 61–113) -/

/-- Embedding of the retry loop `for i in range(retries + 1)` over
`download_image`, starting at attempt index `i` with `rem` further attempts
allowed after the current one.  `f` gives the outcome of each attempt.
Returns `(number_of_attempts_performed, (img_stream, error))`: the loop stops
at the first attempt whose stream is non-`None`, otherwise it runs all
attempts and keeps the last result. -/
def retryLoop (f : Nat → Option ByteData × Option String) (i : Nat) : Nat → Nat × (Option ByteData × Option String)
  | 0 => (1, f i)
  | rem + 1 =>
    let r := f i
    if r.1.isSome then (1, r)
    else
      let t := retryLoop f (i + 1) rem
      (t.1 + 1, t.2)

/-- Single-URL branch of `download_image_with_retry` (source lines 103–113):
up to `retries + 1` attempts, first success wins, else the last result. -/
def downloadSingleWithRetry (attempt : Nat → HttpResult) (retries : Nat) (userAgentToken : Option String) (disallowed : List String) : Nat × (Option ByteData × Option String) :=
  retryLoop (fun i => download_image (attempt i) userAgentToken disallowed) 0 retries

/-- List-URL branch of `download_image_with_retry` (source lines 66–100):
`None` URLs are skipped outright; each remaining URL gets its own retry loop
(first success wins with error `None`, else the last error), and the results
are collected in the input order of the non-null URLs.  `oracle j i` is the
outcome of attempt `i` for the URL at original list position `j`. -/
def downloadListWithRetry (oracle : Nat → Nat → HttpResult) (urls : List (Option String)) (retries : Nat) (userAgentToken : Option String) (disallowed : List String) : List (Option ByteData × Option String) :=
  urls.enum.filterMap fun ju =>
    ju.2.map fun _ => (retryLoop (fun i => download_image (oracle ju.1 i) userAgentToken disallowed) 0 retries).2

/-- Row-level fetch result as consumed by `download_shard`'s drain loop:
`download_image_with_retry` returns a single `(stream, error)` pair for a
plain URL cell and an ordered list of per-URL pairs (with envelope error
`None`) for a list cell. -/
inductive FetchRes where
  | single (stream : Option ByteData) (err : Option String)
  | multi (subs : List (Option ByteData × Option String))
  deriving DecidableEq, Repr

/-- Dispatch of `download_image_with_retry` on the URL cell shape
(`isinstance(url, list)`), fed by the per-attempt oracle. -/
def download_image_with_retry (oracle : Nat → Nat → HttpResult) (urlCell : PayloadValue) (retries : Nat) (userAgentToken : Option String) (disallowed : List String) : FetchRes :=
  match urlCell with
  | .vlist us => .multi (downloadListWithRetry oracle us retries userAgentToken disallowed)
  | _ => .single (downloadSingleWithRetry (oracle 0) retries userAgentToken disallowed).2.1
      (downloadSingleWithRetry (oracle 0) retries userAgentToken disallowed).2.2

/-! ### Key formatter (`compute_key`, source lines 116–122, and the
`oom_sample_per_shard` computation at line 249) -/

/-- Decimal digit characters of `n`, most significant first, computed with
explicit fuel so that the definition is structural (kernel-reducible).
With fuel `n + 1` this is the exact decimal representation of `n`. -/
def decChars : Nat → Nat → List Char
  | 0, _ => []
  | fuel + 1, n =>
    if n < 10 then [Nat.digitChar n]
    else decChars fuel (n / 10) ++ [Nat.digitChar (n % 10)]

/-- Decimal string of a natural number (Python `str(n)` / `"{:d}".format(n)`). -/
def decRepr (n : Nat) : String :=
  String.mk (decChars (n + 1) n)

/-- Left padding with `'0'` to width `w`; a representation already at least
`w` long is kept unchanged (Python `"{:0{w}d}"` never truncates). -/
def zeroPadChars (w : Nat) (s : List Char) : List Char :=
  List.replicate (w - s.length) '0' ++ s

/-- Embedding of `compute_key(key, shard_id, oom_sample_per_shard,
oom_shard_count)`: format `10 ** oom_sample_per_shard * shard_id + key`
zero-padded to width `oom_sample_per_shard + oom_shard_count`. -/
def compute_key (key shardId oomSamplePerShard oomShardCount : Nat) : String :=
  let trueKey := 10 ^ oomSamplePerShard * shardId + key
  String.mk (zeroPadChars (oomSamplePerShard + oomShardCount) (decChars (trueKey + 1) trueKey))

/-- Embedding of `math.ceil(math.log10(n))` at source line 249, idealising the
float computation to exact arithmetic: the least `p` with `n ≤ 10 ^ p`
(for `n ≥ 1`; the source is only ever called with a positive shard size).
Computed executably through the digit count of `n - 1`. -/
def ceilLog10 (n : Nat) : Nat :=
  if n ≤ 1 then 0 else (decChars n (n - 1)).length

/-- Spec-side decimal representation, written against Mathlib's canonical
`Nat.digits`, used to certify `decChars`. -/
def decimalRepChars (n : Nat) : List Char :=
  if n = 0 then ['0'] else ((Nat.digits 10 n).reverse.map Nat.digitChar)

/-- Spec-side `zero_pad(s, w)`: left-pad the string with zeros to width `w`. -/
def zero_pad (s : String) (w : Nat) : String :=
  String.mk (List.replicate (w - s.length) '0' ++ s.data)

/-! #### Lemmas about the decimal representation -/

theorem decChars_fuel_irrel : ∀ n f g : Nat, n < f → n < g → decChars f n = decChars g n := by
  intro n
  induction n using Nat.strong_induction_on with
  | _ n ih =>
    intro f g hf hg
    match f, g with
    | f' + 1, g' + 1 =>
      by_cases h10 : n < 10
      · simp [decChars, h10]
      · have hn0 : 0 < n := by omega
        have hdiv : n / 10 < n := Nat.div_lt_self hn0 (by norm_num)
        have hf' : n / 10 < f' := by omega
        have hg' : n / 10 < g' := by omega
        simp only [decChars, if_neg h10]
        rw [ih (n / 10) hdiv f' g' hf' hg']

theorem decChars_eq_decimalRep (n : Nat) : decChars (n + 1) n = decimalRepChars n := by
  induction n using Nat.strong_induction_on with
  | _ n ih =>
    by_cases h0 : n = 0
    · subst h0; simp [decChars, decimalRepChars]; rfl
    · by_cases h10 : n < 10
      · simp only [decChars, if_pos h10, decimalRepChars, if_neg h0]
        rw [Nat.digits_of_lt 10 n h0 h10]
        simp
      · have hn0 : 0 < n := Nat.pos_of_ne_zero h0
        have hdiv : n / 10 < n := Nat.div_lt_self hn0 (by norm_num)
        have hdiv0 : n / 10 ≠ 0 := by
          intro h
          have := (Nat.div_eq_zero_iff (by norm_num : 0 < 10)).mp h
          omega
        simp only [decChars, if_neg h10]
        rw [decChars_fuel_irrel (n / 10) n (n / 10 + 1) (by omega) (by omega)]
        rw [ih (n / 10) hdiv]
        simp only [decimalRepChars, if_neg h0, if_neg hdiv0]
        rw [Nat.digits_def' (by norm_num : (1:Nat) < 10) hn0]
        simp

theorem decimalRep_length_le {n k : Nat} (hk : 0 < k) (hn : n < 10 ^ k) :
    (decimalRepChars n).length ≤ k := by
  by_cases h0 : n = 0
  · subst h0; simpa [decimalRepChars] using hk
  · simp only [decimalRepChars, if_neg h0, List.length_map, List.length_reverse]
    rw [Nat.digits_len 10 n (by norm_num) h0]
    have := (Nat.lt_pow_iff_log_lt (by norm_num : (1:Nat) < 10) h0).mp hn
    omega

theorem decimalRep_length_pos (n : Nat) : 0 < (decimalRepChars n).length := by
  by_cases h0 : n = 0
  · subst h0; simp [decimalRepChars]
  · simp only [decimalRepChars, if_neg h0, List.length_map, List.length_reverse]
    rw [Nat.digits_len 10 n (by norm_num) h0]
    omega

theorem pow_decimalRep_length_gt {n : Nat} : n < 10 ^ (decimalRepChars n).length := by
  by_cases h0 : n = 0
  · subst h0; simp [decimalRepChars]
  · simp only [decimalRepChars, if_neg h0, List.length_map, List.length_reverse]
    exact Nat.lt_base_pow_length_digits (by norm_num)

theorem pow_pred_le_decimalRep {n : Nat} (h0 : n ≠ 0) :
    10 ^ ((decimalRepChars n).length - 1) ≤ n := by
  simp only [decimalRepChars, if_neg h0, List.length_map, List.length_reverse]
  rw [Nat.digits_len 10 n (by norm_num) h0]
  simpa using Nat.pow_log_le_self 10 h0

/-- Characterisation of the (idealised) `math.ceil(math.log10 n)`:
`ceilLog10 n` is the least `p` with `n ≤ 10 ^ p`. -/
theorem ceilLog10_spec (n : Nat) (hn : 1 ≤ n) :
    n ≤ 10 ^ ceilLog10 n ∧ ∀ p, p < ceilLog10 n → 10 ^ p < n := by
  by_cases h1 : n ≤ 1
  · have : n = 1 := by omega
    subst this
    refine ⟨by simp [ceilLog10], ?_⟩
    intro p hp
    simp [ceilLog10] at hp
  · have hm : n - 1 ≠ 0 := by omega
    have hd : decChars n (n - 1) = decimalRepChars (n - 1) := by
      rw [decChars_fuel_irrel (n - 1) n (n - 1 + 1) (by omega) (by omega)]
      exact decChars_eq_decimalRep (n - 1)
    constructor
    · have := @pow_decimalRep_length_gt (n - 1)
      simp only [ceilLog10, if_neg h1, hd]
      omega
    · intro p hp
      simp only [ceilLog10, if_neg h1, hd] at hp
      have hle : 10 ^ p ≤ 10 ^ ((decimalRepChars (n - 1)).length - 1) :=
        Nat.pow_le_pow_right (by norm_num) (by omega)
      have := pow_pred_le_decimalRep hm
      omega

/-! ### Data model of the per-row processor (`Downloader.download_shard`,
source lines 182–520) -/

/-- Encoded image produced by a successful `Resizer` call, with its four
dimension fields (`Resizer` contract: on success all are populated). -/
structure ResizedImage where
  img : ByteData
  width : Int
  height : Int
  originalWidth : Int
  originalHeight : Int
  deriving DecidableEq, Repr

/-- Record metadata dictionary built at source lines 264–283 and mutated by
the branches: the echoed payload columns (verification-hash column stripped)
plus the appended output fields. -/
structure SampleMeta where
  payload : List (String × PayloadValue)
  key : String
  status : Option String
  errorMessage : Option String
  width : Option Int
  height : Option Int
  originalWidth : Option Int
  originalHeight : Option Int
  exif : Option String
  computedHash : Option String
  deriving DecidableEq, Repr

/-- Shard-level outcome counters (source lines 218–220). -/
structure Counters where
  successes : Nat
  failedToDownload : Nat
  failedToResize : Nat
  deriving DecidableEq, Repr

def Counters.zero : Counters := ⟨0, 0, 0⟩

def Counters.add (a b : Counters) : Counters :=
  ⟨a.successes + b.successes, a.failedToDownload + b.failedToDownload,
   a.failedToResize + b.failedToResize⟩

def Counters.total (c : Counters) : Nat :=
  c.successes + c.failedToDownload + c.failedToResize

/-- Observable interactions of the drain loop for one row, in program order:
hash-verification digest comparison, `Resizer` invocation, `SampleWriter`
calls, and the backpressure-semaphore release. -/
inductive RowEffect where
  | verifyDigest
  | resize
  | write (img : Option ByteData) (strKey : String) (caption : Option PayloadValue) (meta : SampleMeta)
  | writeMulti (results : List (Option ByteData × SampleMeta)) (strKey : String) (caption : Option PayloadValue)
  | release
  deriving DecidableEq, Repr

/-- Downloader configuration, restricted to the fields the drain loop reads,
with the external collaborators (`Resizer`, `hashlib` digests, EXIF parsing,
the writer's `write_multi_images` capability probe) as abstract functions.
`resizer b bbox` is `self.resizer(stream, bbox_list)` with the 6-tuple return
collapsed into `Except error_message ResizedImage` (the source only tests
`error_message is not None`); `digest algo b` is
`getattr(hashlib, algo)(b).hexdigest()`; `exifOf b` is the `try`-wrapped EXIF
extraction (`none` when parsing fails). -/
structure DLConfig where
  columnList : List String
  verifyHashType : Option String
  computeHash : Option String
  extractExif : Bool
  blurringBboxCol : Option String
  threadCount : Nat
  retries : Nat
  userAgentToken : Option String
  disallowedHeaderDirectives : List String
  writerHasMulti : Bool
  resizer : ByteData → Option PayloadValue → Except String ResizedImage
  digest : String → ByteData → String
  exifOf : ByteData → Option String

/-- Index of the verification-hash column:
`column_list.index(verify_hash_type) if verify_hash_type in column_list else None`
(first occurrence; also `None` when no hash type is configured). -/
def hashIndice (cfg : DLConfig) : Option Nat :=
  match cfg.verifyHashType with
  | none => none
  | some t => cfg.columnList.indexOf? t

/-- Index of the `caption` column, when present. -/
def captionIndice (cfg : DLConfig) : Option Nat :=
  cfg.columnList.indexOf? "caption"

/-- Index of the blurring-bbox column, when configured.  (The source raises
when the configured column is absent; that shard-level failure is outside the
per-row model, so a missing column maps to `none` here.) -/
def bboxIndice (cfg : DLConfig) : Option Nat :=
  cfg.blurringBboxCol.bind fun c => cfg.columnList.indexOf? c

/-- Value passed as the `caption` writer argument:
`sample_data[caption_indice] if caption_indice is not None else None`. -/
def captionValue (cfg : DLConfig) (sampleData : List PayloadValue) : Option PayloadValue :=
  (captionIndice cfg).bind fun i => sampleData.get? i

/-- Value passed as the resizer's bbox argument:
`sample_data[bbox_indice] if bbox_indice is not None else None`. -/
def bboxValue (cfg : DLConfig) (sampleData : List PayloadValue) : Option PayloadValue :=
  (bboxIndice cfg).bind fun i => sampleData.get? i

/-- Echoed payload columns of the `meta` dict (source lines 266–270): every
configured column with its sample value, skipping the verification-hash
column's position. -/
def strippedPayload (cfg : DLConfig) (sampleData : List PayloadValue) : List (String × PayloadValue) :=
  (cfg.columnList.zip sampleData).enum.filterMap fun p =>
    if hashIndice cfg = some p.1 then none else some p.2

/-- The `meta` dict as first built (source lines 264–283): echoed payload,
the computed key, `status = None`, `error_message` from the fetch envelope,
null dimensions, and null `exif` / compute-hash slots. -/
def buildMeta (cfg : DLConfig) (sampleData : List PayloadValue) (strKey : String) (errorMessage : Option String) : SampleMeta :=
  { payload := strippedPayload cfg sampleData
    key := strKey
    status := none
    errorMessage := errorMessage
    width := none
    height := none
    originalWidth := none
    originalHeight := none
    exif := none
    computedHash := none }

/-- Shared resize-and-finalise stage of the single-URL branch (source lines
435–496): invoke the resizer; on error write the failure record, else fill
EXIF / compute-hash / dimensions and write the image.  Every path ends by
releasing the semaphore permit (the early branches release before their
`continue`; the success path falls through to the release at line 500). -/
def resizeStage (cfg : DLConfig) (sampleData : List PayloadValue) (strKey : String) (meta : SampleMeta) (b : ByteData) : Counters × List RowEffect :=
  let caption := captionValue cfg sampleData
  match cfg.resizer b (bboxValue cfg sampleData) with
  | .error e =>
    (⟨0, 0, 1⟩,
     [.resize, .write none strKey caption { meta with status := some "failed_to_resize", errorMessage := some e }, .release])
  | .ok r =>
    let meta' := { meta with
      status := some "success"
      width := some r.width
      height := some r.height
      originalWidth := some r.originalWidth
      originalHeight := some r.originalHeight
      exif := if cfg.extractExif then cfg.exifOf b else meta.exif
      computedHash := cfg.computeHash.map fun a => cfg.digest a b }
    (⟨1, 0, 0⟩, [.resize, .write (some r.img) strKey caption meta', .release])

/-- Single-URL branch of the drain loop (source lines 399–496): fetch error →
`failed_to_download`; then optional hash verification (mismatch →
`failed_to_download` with `"hash mismatch"`, resizer never reached); then the
resize stage.  The unreachable `(None, None)` input (never produced by
`download_image_with_retry`) raises in the source (`None.seek`), is caught by
the per-row handler and contributes nothing but the release. -/
def processSingle (cfg : DLConfig) (sampleData : List PayloadValue) (strKey : String) (stream : Option ByteData) (err : Option String) : Counters × List RowEffect :=
  let caption := captionValue cfg sampleData
  let meta := buildMeta cfg sampleData strKey err
  match err with
  | some _ =>
    (⟨0, 1, 0⟩, [.write none strKey caption { meta with status := some "failed_to_download" }, .release])
  | none =>
    match stream with
    | none => (Counters.zero, [.release])
    | some b =>
      match cfg.verifyHashType with
      | some vht =>
        match cfg.columnList.indexOf? vht with
        | some i =>
          if (sampleData.get? i).getD .vnone ≠ .vstr (cfg.digest vht b) then
            (⟨0, 1, 0⟩,
             [.verifyDigest,
              .write none strKey caption { meta with status := some "failed_to_download", errorMessage := some "hash mismatch" },
              .release])
          else
            let t := resizeStage cfg sampleData strKey meta b
            (t.1, .verifyDigest :: t.2)
        | none => resizeStage cfg sampleData strKey meta b
      | none => resizeStage cfg sampleData strKey meta b

/-- Per-sub-URL outcome inside the list branch (source lines 291–366): a
fetch error yields a `failed_to_download` entry; otherwise the image is
resized (hash verification is skipped for list rows, with only a warning
printed), yielding either a `failed_to_resize` entry or a success entry
with EXIF / compute-hash / dimensions filled.  Returns the counter delta,
the `(img, sub_meta)` entry, its effects, and whether it was a success. -/
def processSub (cfg : DLConfig) (sampleData : List PayloadValue) (base : SampleMeta) (sub : Option ByteData × Option String) : Counters × (Option ByteData × SampleMeta) × List RowEffect × Bool :=
  match sub.2 with
  | some e =>
    (⟨0, 1, 0⟩, (none, { base with status := some "failed_to_download", errorMessage := some e }), [], false)
  | none =>
    match sub.1 with
    | none => (Counters.zero, (none, base), [], false)
    | some b =>
      match cfg.resizer b (bboxValue cfg sampleData) with
      | .error e =>
        (⟨0, 0, 1⟩, (none, { base with status := some "failed_to_resize", errorMessage := some e }), [.resize], false)
      | .ok r =>
        let meta' := { base with
          status := some "success"
          width := some r.width
          height := some r.height
          originalWidth := some r.originalWidth
          originalHeight := some r.originalHeight
          exif := if cfg.extractExif then cfg.exifOf b else base.exif
          computedHash := cfg.computeHash.map fun a => cfg.digest a b }
        (⟨1, 0, 0⟩, (some r.img, meta'), [.resize], true)

/- A sub-result `(None, None)` cannot be produced by
`download_image_with_retry` (proved below as `downloadList_wf`); in the
source it would raise `AttributeError` on `None.seek(0)` inside the per-row
`try`, aborting the remaining subs of that row.  `processSub` maps it to a
no-op entry and `processSubs` tracks it through its `aborted` flag so that
the abort path can be modelled faithfully. -/

/-- Left-to-right processing of all sub-results (the `for idx, ... in
enumerate(img_stream)` loop, source lines 291–366).  Returns accumulated
counters, the ordered `multi_img_results`, the accumulated effects, the
`any_success` flag and an `aborted` flag for the unreachable raising input. -/
def processSubs (cfg : DLConfig) (sampleData : List PayloadValue) (base : SampleMeta) : List (Option ByteData × Option String) → Counters × List (Option ByteData × SampleMeta) × List RowEffect × Bool × Bool
  | [] => (Counters.zero, [], [], false, false)
  | sub :: rest =>
    if sub.1.isNone ∧ sub.2.isNone then
      (Counters.zero, [], [], false, true)
    else
      let h := processSub cfg sampleData base sub
      let t := processSubs cfg sampleData base rest
      (h.1.add t.1, h.2.1 :: t.2.1, h.2.2.1 ++ t.2.2.1, (h.2.2.2 || t.2.2.2.1), t.2.2.2.2)

/-- List-URL branch of the drain loop (source lines 286–398): process each
sub-result, then aggregate — any success and a multi-capable writer →
`write_multi_images` with the full ordered list; any success otherwise →
`write` of the first `(img, sub_meta)` with a non-null image; no success →
one failure `write` with the first sub-outcome's meta, or the base meta when
the list is empty.  The permit is released at line 500 in every case. -/
def processMulti (cfg : DLConfig) (sampleData : List PayloadValue) (strKey : String) (subs : List (Option ByteData × Option String)) : Counters × List RowEffect :=
  let caption := captionValue cfg sampleData
  let base := buildMeta cfg sampleData strKey none
  let t := processSubs cfg sampleData base subs
  let results := t.2.1
  let anySuccess := t.2.2.2.1
  let aborted := t.2.2.2.2
  if aborted then
    (t.1, t.2.2.1 ++ [.release])
  else
    let writes :=
      if anySuccess then
        if cfg.writerHasMulti then
          [.writeMulti results strKey caption]
        else
          match results.find? fun r => r.1.isSome with
          | some r => [RowEffect.write r.1 strKey caption r.2]
          | none => []
      else
        [RowEffect.write none strKey caption ((results.head?.map fun r => r.2).getD base)]
    (t.1, t.2.2.1 ++ writes ++ [.release])

/-- Drain-loop post-processing of one row's fetch result (source lines
261–500): dispatch on `isinstance(img_stream, list)`. -/
def processRow (cfg : DLConfig) (sampleData : List PayloadValue) (strKey : String) : FetchRes → Counters × List RowEffect
  | .single s e => processSingle cfg sampleData strKey s e
  | .multi subs => processMulti cfg sampleData strKey subs

/-- URL cell of a row: `sample_data[url_indice]` (the theorems require
`"url"` to be a configured column, as the source does via `.index("url")`). -/
def urlValue (cfg : DLConfig) (sampleData : List PayloadValue) : PayloadValue :=
  match cfg.columnList.indexOf? "url" with
  | some i => (sampleData.get? i).getD .vnone
  | none => .vnone

/-- Whole-shard folding of the drain loop (source lines 250–500): row `k`
is fetched through its oracle `oracle k` and post-processed under the key
`compute_key(k, shard_id, oom_sample_per_shard, oom_shard_count)`, with
counters accumulated across rows and effects in row order.  (Result arrival
is unordered in the source; the counter totals are order-independent, and
the per-row effect lists are concatenated here in row order purely for
bookkeeping.) -/
def shardRows (cfg : DLConfig) (shardId p oomShardCount : Nat) (oracle : Nat → Nat → Nat → HttpResult) : Nat → List (List PayloadValue) → Counters × List RowEffect
  | _, [] => (Counters.zero, [])
  | k, sampleData :: rest =>
    let fr := download_image_with_retry (oracle k) (urlValue cfg sampleData) cfg.retries cfg.userAgentToken cfg.disallowedHeaderDirectives
    let t := processRow cfg sampleData (compute_key k shardId p oomShardCount) fr
    let r := shardRows cfg shardId p oomShardCount oracle (k + 1) rest
    (t.1.add r.1, t.2 ++ r.2)

def shardProcess (cfg : DLConfig) (shardId numberSamplePerShard oomShardCount : Nat) (oracle : Nat → Nat → Nat → HttpResult) (rows : List (List PayloadValue)) : Counters × List RowEffect :=
  shardRows cfg shardId (ceilLog10 numberSamplePerShard) oomShardCount oracle 0 rows

/-! ### Exception model for the per-row handler (source lines 497–500) -/

/-- Number of semaphore releases in an effect trace. -/
def releaseCount (l : List RowEffect) : Nat :=
  l.countP fun e => e = .release

/-- Execution of one row's post-processing under the per-row `try/except`:
with `none` no exception occurs and the whole trace runs; with `some n` the
`n`-th interaction raises instead of completing, the handler at line 497
logs, and the release at line 500 still runs.  (A raise can only happen at an
external interaction, never at the release itself.) -/
def runWithRaise (trace : List RowEffect) : Option Nat → List RowEffect
  | none => trace
  | some n => trace.take n ++ [.release]

/-- Validity of a raise point: it indexes an interaction of the trace that is
not the semaphore release. -/
def validRaise (trace : List RowEffect) (n : Nat) : Prop :=
  n < trace.length ∧ trace.get? n ≠ some RowEffect.release

/-! ### Backpressure transition system (source lines 229–238, 250–260, 500).
The generator acquires one permit from a `Semaphore(thread_count * 2)` before
yielding each row; the drain loop releases one permit when a row's
post-processing terminates.  A state counts admitted and fully processed
rows; `acquire` is enabled exactly when a permit is available. -/

structure PoolState where
  admitted : Nat
  processed : Nat
  deriving DecidableEq, Repr

inductive PoolStep (threadCount : Nat) : PoolState → PoolState → Prop
  | acquire (s : PoolState) :
      s.admitted - s.processed < 2 * threadCount →
      PoolStep threadCount s ⟨s.admitted + 1, s.processed⟩
  | finish (s : PoolState) :
      s.processed < s.admitted →
      PoolStep threadCount s ⟨s.admitted, s.processed + 1⟩

/-- States reachable from the start of a shard (no row admitted). -/
def PoolReachable (threadCount : Nat) (s : PoolState) : Prop :=
  Relation.ReflTransGen (PoolStep threadCount) ⟨0, 0⟩ s

/-! ### Shard orchestration order (`__call__` lines 170–180 and the tail of
`download_shard`, lines 502–520) -/

/-- Straight-line shard-level steps of `download_shard`, in program order.
The per-row work sits inside `processRows` (per-row exceptions are caught by
the inner handler and do not abort the shard; a failure of this step models a
pipeline-level error). -/
inductive ShardOp where
  | openShard
  | readTable
  | createWriter
  | processRows
  | closeWriter
  | writeStats
  | removeShard
  deriving DecidableEq, Repr

/-- Program order of the shard-level steps: the writer is closed after the
rows are drained (line 502), stats are written next (line 508), and the
source shard file is removed last (line 520). -/
def downloadShardOps : List ShardOp :=
  [.openShard, .readTable, .createWriter, .processRows, .closeWriter, .writeStats, .removeShard]

/-- Run a list of shard-level steps under a failure oracle: steps run in
order until the first one that raises; the raising step does not complete.
Returns the completed steps. -/
def runOps (fails : ShardOp → Bool) : List ShardOp → List ShardOp × Bool
  | [] => ([], true)
  | op :: rest =>
    if fails op then ([], false)
    else
      let t := runOps fails rest
      (op :: t.1, t.2)

/-- Embedding of `Downloader.__call__` (source lines 170–180): run
`download_shard`; any exception is caught and turns into `ok = False`.
Returns the completed shard-level steps and the `ok` flag. -/
def downloaderCall (fails : ShardOp → Bool) : List ShardOp × Bool :=
  runOps fails downloadShardOps

/-! ### Helper lemmas -/

theorem download_image_shape (r : HttpResult) (ua : Option String) (dis : List String) :
    (∃ m, download_image r ua dis = (none, some m)) ∨
    (∃ b, download_image r ua dis = (some b, none)) := by
  match r with
  | .exn msg => exact .inl ⟨msg, rfl⟩
  | .resp hs b =>
    by_cases h : (!dis.isEmpty && is_disallowed hs ua dis) = true
    · exact .inl ⟨robotsDisallowMsg, by simp [download_image, h]⟩
    · exact .inr ⟨b, by simp [download_image, h]⟩

theorem retryLoop_calls_le (f : Nat → Option ByteData × Option String) :
    ∀ rem i, (retryLoop f i rem).1 ≤ rem + 1 := by
  intro rem
  induction rem with
  | zero => intro i; simp [retryLoop]
  | succ rem ih =>
    intro i
    by_cases h : (f i).1.isSome
    · simp [retryLoop, h]
    · have := ih (i + 1)
      simp only [retryLoop, h]
      simp only [Bool.false_eq_true, if_false]
      omega

theorem retryLoop_result_exists (f : Nat → Option ByteData × Option String) :
    ∀ rem i, ∃ j, i ≤ j ∧ j ≤ i + rem ∧ (retryLoop f i rem).2 = f j := by
  intro rem
  induction rem with
  | zero => intro i; exact ⟨i, le_refl i, by omega, rfl⟩
  | succ rem ih =>
    intro i
    by_cases h : (f i).1.isSome
    · exact ⟨i, le_refl i, by omega, by simp [retryLoop, h]⟩
    · obtain ⟨j, hj1, hj2, hj3⟩ := ih (i + 1)
      refine ⟨j, by omega, by omega, ?_⟩
      simp only [retryLoop, h]
      simpa using hj3

theorem retryLoop_first_success (f : Nat → Option ByteData × Option String) :
    ∀ rem i k, k ≤ rem → (∀ j, j < k → (f (i + j)).1 = none) → (f (i + k)).1.isSome →
      retryLoop f i rem = (k + 1, f (i + k)) := by
  intro rem
  induction rem with
  | zero =>
    intro i k hk _ hs
    have : k = 0 := by omega
    subst this
    simp only [retryLoop]
    simp
  | succ rem ih =>
    intro i k hk hfail hs
    match k with
    | 0 =>
      simp only [Nat.add_zero] at hs
      simp [retryLoop, hs]
    | k + 1 =>
      have h0 : (f i).1 = none := by
        have := hfail 0 (by omega)
        simpa using this
      have hrec := ih (i + 1) k (by omega)
        (fun j hj => by
          have := hfail (j + 1) (by omega)
          simpa [Nat.add_assoc, Nat.add_comm 1 j] using this)
        (by
          have : i + 1 + k = i + (k + 1) := by omega
          rw [this]
          exact hs)
      simp only [retryLoop, h0]
      simp only [Option.isSome_none, Bool.false_eq_true, if_false]
      rw [hrec]
      have : i + 1 + k = i + (k + 1) := by omega
      rw [this]

theorem retryLoop_all_fail (f : Nat → Option ByteData × Option String) :
    ∀ rem i, (∀ j, i ≤ j → j ≤ i + rem → (f j).1 = none) →
      retryLoop f i rem = (rem + 1, f (i + rem)) := by
  intro rem
  induction rem with
  | zero => intro i _; simp [retryLoop]
  | succ rem ih =>
    intro i hfail
    have h0 : (f i).1 = none := hfail i (le_refl i) (by omega)
    have hrec := ih (i + 1) (fun j h1 h2 => hfail j (by omega) (by omega))
    simp only [retryLoop, h0]
    simp only [Option.isSome_none, Bool.false_eq_true, if_false]
    rw [hrec]
    have : i + 1 + rem = i + (rem + 1) := by omega
    rw [this]

/-- Well-formedness of a `(stream, error)` pair: exactly the shapes
`download_image` can produce. -/
def wfPair (p : Option ByteData × Option String) : Prop :=
  (∃ m, p = (none, some m)) ∨ (∃ b, p = (some b, none))

theorem downloadSingle_wf (attempt : Nat → HttpResult) (retries : Nat) (ua : Option String) (dis : List String) :
    wfPair (downloadSingleWithRetry attempt retries ua dis).2 := by
  obtain ⟨j, _, _, hj⟩ := retryLoop_result_exists (fun i => download_image (attempt i) ua dis) retries 0
  rw [downloadSingleWithRetry, hj]
  rcases download_image_shape (attempt j) ua dis with ⟨m, hm⟩ | ⟨b, hb⟩
  · exact .inl ⟨m, hm⟩
  · exact .inr ⟨b, hb⟩

theorem downloadList_wf (oracle : Nat → Nat → HttpResult) (urls : List (Option String)) (retries : Nat) (ua : Option String) (dis : List String) :
    ∀ p ∈ downloadListWithRetry oracle urls retries ua dis, wfPair p := by
  intro p hp
  rw [downloadListWithRetry] at hp
  obtain ⟨ju, _, hmap⟩ := List.mem_filterMap.mp hp
  obtain ⟨u, _, hu⟩ := Option.map_eq_some'.mp hmap
  obtain ⟨j, _, _, hj⟩ := retryLoop_result_exists (fun i => download_image (oracle ju.1 i) ua dis) retries 0
  rw [← hu, hj]
  rcases download_image_shape (oracle ju.1 j) ua dis with ⟨m, hm⟩ | ⟨b, hb⟩
  · exact .inl ⟨m, hm⟩
  · exact .inr ⟨b, hb⟩

theorem processSingle_total (cfg : DLConfig) (sampleData : List PayloadValue) (strKey : String) (s : Option ByteData) (e : Option String) (h : wfPair (s, e)) :
    (processSingle cfg sampleData strKey s e).1.total = 1 := by
  rcases h with ⟨m, hm⟩ | ⟨b, hb⟩
  · cases hm
    simp [processSingle, Counters.total]
  · cases hb
    match hv : cfg.verifyHashType with
    | none =>
      simp only [processSingle, hv, resizeStage]
      cases cfg.resizer b (bboxValue cfg sampleData) <;> simp [Counters.total]
    | some vht =>
      match hi : cfg.columnList.indexOf? vht with
      | none =>
        simp only [processSingle, hv, hi, resizeStage]
        cases cfg.resizer b (bboxValue cfg sampleData) <;> simp [Counters.total]
      | some i =>
        simp only [processSingle, hv, hi]
        split
        · simp [Counters.total]
        · simp only [resizeStage]
          cases cfg.resizer b (bboxValue cfg sampleData) <;> simp [Counters.total]

theorem releaseCount_append (a b : List RowEffect) :
    releaseCount (a ++ b) = releaseCount a + releaseCount b := by
  simp [releaseCount, List.countP_append]

theorem resizeStage_trace (cfg : DLConfig) (sampleData : List PayloadValue) (strKey : String) (meta : SampleMeta) (b : ByteData) :
    ∃ t, (resizeStage cfg sampleData strKey meta b).2 = t ++ [.release] ∧ releaseCount t = 0 := by
  rw [resizeStage]
  cases cfg.resizer b (bboxValue cfg sampleData) with
  | error e =>
    exact ⟨[.resize, .write none strKey (captionValue cfg sampleData) _], rfl, by simp [releaseCount]⟩
  | ok r =>
    exact ⟨[.resize, .write (some r.img) strKey (captionValue cfg sampleData) _], rfl, by simp [releaseCount]⟩

theorem processSingle_trace (cfg : DLConfig) (sampleData : List PayloadValue) (strKey : String) (s : Option ByteData) (e : Option String) :
    ∃ t, (processSingle cfg sampleData strKey s e).2 = t ++ [.release] ∧ releaseCount t = 0 := by
  match e with
  | some m =>
    exact ⟨[.write none strKey (captionValue cfg sampleData) _], rfl, by simp [releaseCount]⟩
  | none =>
    match s with
    | none => exact ⟨[], rfl, by simp [releaseCount]⟩
    | some b =>
      match hv : cfg.verifyHashType with
      | none =>
        simp only [processSingle, hv]
        exact resizeStage_trace cfg sampleData strKey _ b
      | some vht =>
        match hi : cfg.columnList.indexOf? vht with
        | none =>
          simp only [processSingle, hv, hi]
          exact resizeStage_trace cfg sampleData strKey _ b
        | some i =>
          simp only [processSingle, hv, hi]
          split
          · exact ⟨[.verifyDigest, .write none strKey (captionValue cfg sampleData) _], rfl, by simp [releaseCount]⟩
          · obtain ⟨t, ht, hr⟩ := resizeStage_trace cfg sampleData strKey (buildMeta cfg sampleData strKey none) b
            refine ⟨.verifyDigest :: t, ?_, ?_⟩
            · simp [ht]
            · simp [releaseCount] at hr ⊢
              exact hr

theorem processSub_effects (cfg : DLConfig) (sampleData : List PayloadValue) (base : SampleMeta) (sub : Option ByteData × Option String) :
    (processSub cfg sampleData base sub).2.2.1 = [] ∨ (processSub cfg sampleData base sub).2.2.1 = [.resize] := by
  match sub with
  | (s, some e) => exact .inl rfl
  | (none, none) => exact .inl rfl
  | (some b, none) =>
    simp only [processSub]
    cases cfg.resizer b (bboxValue cfg sampleData) <;> simp

theorem processSubs_effects (cfg : DLConfig) (sampleData : List PayloadValue) (base : SampleMeta) :
    ∀ subs, ∀ x ∈ (processSubs cfg sampleData base subs).2.2.1, x = RowEffect.resize := by
  intro subs
  induction subs with
  | nil => intro x hx; simp [processSubs] at hx
  | cons sub rest ih =>
    intro x hx
    by_cases hab : sub.1.isNone ∧ sub.2.isNone
    · simp [processSubs, hab] at hx
    · simp only [processSubs, if_neg hab] at hx
      rcases List.mem_append.mp hx with h | h
      · rcases processSub_effects cfg sampleData base sub with he | he <;> rw [he] at h
        · simp at h
        · simpa using h
      · exact ih x h

theorem trace_shape (effs ws : List RowEffect) (h1 : releaseCount effs = 0) (h2 : releaseCount ws = 0) :
    ∃ t, effs ++ ws ++ [RowEffect.release] = t ++ [RowEffect.release] ∧ releaseCount t = 0 := by
  refine ⟨effs ++ ws, by simp, ?_⟩
  rw [releaseCount_append]
  omega

theorem processMulti_trace (cfg : DLConfig) (sampleData : List PayloadValue) (strKey : String) (subs : List (Option ByteData × Option String)) :
    ∃ t, (processMulti cfg sampleData strKey subs).2 = t ++ [.release] ∧ releaseCount t = 0 := by
  have hsubs := processSubs_effects cfg sampleData (buildMeta cfg sampleData strKey none) subs
  have hsubs0 : releaseCount (processSubs cfg sampleData (buildMeta cfg sampleData strKey none) subs).2.2.1 = 0 := by
    rw [releaseCount, List.countP_eq_zero]
    intro x hx
    have := hsubs x hx
    subst this
    simp
  rw [processMulti]
  simp only []
  split
  · exact ⟨_, rfl, hsubs0⟩
  · refine trace_shape _ _ hsubs0 ?_
    split
    · split
      · simp [releaseCount]
      · split <;> simp [releaseCount]
    · simp [releaseCount]

theorem processRow_trace (cfg : DLConfig) (sampleData : List PayloadValue) (strKey : String) (fr : FetchRes) :
    ∃ t, (processRow cfg sampleData strKey fr).2 = t ++ [.release] ∧ releaseCount t = 0 := by
  cases fr with
  | single s e => exact processSingle_trace cfg sampleData strKey s e
  | multi subs => exact processMulti_trace cfg sampleData strKey subs

theorem runWithRaise_release_once (trace : List RowEffect) (t : List RowEffect)
    (htr : trace = t ++ [.release]) (h0 : releaseCount t = 0) :
    ∀ n : Option Nat, (n = none ∨ ∃ k, n = some k ∧ validRaise trace k) →
      releaseCount (runWithRaise trace n) = 1 := by
  intro n hn
  rcases hn with rfl | ⟨k, rfl, hk1, hk2⟩
  · rw [runWithRaise, htr, releaseCount_append, h0]
    simp [releaseCount]
  · have hkt : k < t.length := by
      rcases Nat.lt_or_ge k t.length with h | h
      · exact h
      · exfalso
        have hlen : trace.length = t.length + 1 := by simp [htr]
        have hk : k = t.length := by omega
        apply hk2
        rw [htr, hk]
        exact List.get?_concat_length t _
    rw [runWithRaise, htr]
    rw [List.take_append_of_le_length (by omega)]
    rw [releaseCount_append]
    have : releaseCount (t.take k) = 0 := by
      rw [releaseCount, List.countP_eq_zero]
      intro x hx
      have hxt : x ∈ t := List.mem_of_mem_take hx
      rw [releaseCount, List.countP_eq_zero] at h0
      exact h0 x hxt
    rw [this]
    simp [releaseCount]

/-- Metadata dictionaries handed to the writer by one effect. -/
def writtenMetas : RowEffect → List SampleMeta
  | .write _ _ _ m => [m]
  | .writeMulti rs _ _ => rs.map fun r => r.2
  | _ => []

theorem processSub_payload (cfg : DLConfig) (sampleData : List PayloadValue) (base : SampleMeta) (sub : Option ByteData × Option String) :
    (processSub cfg sampleData base sub).2.1.2.payload = base.payload := by
  match sub with
  | (s, some e) => rfl
  | (none, none) => rfl
  | (some b, none) =>
    simp only [processSub]
    cases cfg.resizer b (bboxValue cfg sampleData) <;> rfl

theorem processSubs_results_payload (cfg : DLConfig) (sampleData : List PayloadValue) (base : SampleMeta) :
    ∀ subs, ∀ entry ∈ (processSubs cfg sampleData base subs).2.1, entry.2.payload = base.payload := by
  intro subs
  induction subs with
  | nil => intro entry h; simp [processSubs] at h
  | cons sub rest ih =>
    intro entry h
    by_cases hab : sub.1.isNone ∧ sub.2.isNone
    · simp [processSubs, hab] at h
    · simp only [processSubs, if_neg hab, List.mem_cons] at h
      rcases h with h | h
      · rw [h]
        exact processSub_payload cfg sampleData base sub
      · exact ih entry h

theorem processSingle_written_payload (cfg : DLConfig) (sampleData : List PayloadValue) (strKey : String) (s : Option ByteData) (e : Option String) :
    ∀ eff ∈ (processSingle cfg sampleData strKey s e).2, ∀ m ∈ writtenMetas eff,
      m.payload = strippedPayload cfg sampleData := by
  intro eff heff m hm
  match e with
  | some msg =>
    simp only [processSingle, List.mem_cons] at heff
    rcases heff with h | h | h
    · rw [h] at hm
      simp only [writtenMetas, List.mem_singleton] at hm
      rw [hm]
      rfl
    · rw [h] at hm; simp [writtenMetas] at hm
    · simp at h
  | none =>
    match s with
    | none =>
      simp only [processSingle, List.mem_singleton] at heff
      rw [heff] at hm
      simp [writtenMetas] at hm
    | some b =>
      have hstage : ∀ meta : SampleMeta, meta.payload = strippedPayload cfg sampleData →
          ∀ eff ∈ (resizeStage cfg sampleData strKey meta b).2, ∀ m ∈ writtenMetas eff,
            m.payload = strippedPayload cfg sampleData := by
        intro meta hmeta eff heff m hm
        rw [resizeStage] at heff
        rcases hr : cfg.resizer b (bboxValue cfg sampleData) with er | ok <;> rw [hr] at heff <;>
          simp only [List.mem_cons, List.not_mem_nil, or_false] at heff
        · rcases heff with h | h | h
          · rw [h] at hm; simp [writtenMetas] at hm
          · rw [h] at hm
            simp only [writtenMetas, List.mem_singleton] at hm
            rw [hm]
            exact hmeta
          · rw [h] at hm; simp [writtenMetas] at hm
        · rcases heff with h | h | h
          · rw [h] at hm; simp [writtenMetas] at hm
          · rw [h] at hm
            simp only [writtenMetas, List.mem_singleton] at hm
            rw [hm]
            exact hmeta
          · rw [h] at hm; simp [writtenMetas] at hm
      match hv : cfg.verifyHashType with
      | none =>
        simp only [processSingle, hv] at heff
        exact hstage _ rfl eff heff m hm
      | some vht =>
        match hi : cfg.columnList.indexOf? vht with
        | none =>
          simp only [processSingle, hv, hi] at heff
          exact hstage _ rfl eff heff m hm
        | some i =>
          simp only [processSingle, hv, hi] at heff
          rcases heff' : (sampleData.get? i).getD PayloadValue.vnone ≠ PayloadValue.vstr (cfg.digest vht b) with _
          by_cases hcond : (sampleData.get? i).getD PayloadValue.vnone ≠ PayloadValue.vstr (cfg.digest vht b)
          · rw [if_pos hcond] at heff
            simp only [List.mem_cons] at heff
            rcases heff with h | h | h | h
            · rw [h] at hm; simp [writtenMetas] at hm
            · rw [h] at hm
              simp only [writtenMetas, List.mem_singleton] at hm
              rw [hm]
              rfl
            · rw [h] at hm; simp [writtenMetas] at hm
            · simp at h
          · rw [if_neg hcond] at heff
            simp only [List.mem_cons] at heff
            rcases heff with h | h
            · rw [h] at hm; simp [writtenMetas] at hm
            · exact hstage _ rfl eff h m hm

theorem head?_mem {α : Type} {l : List α} {a : α} (h : l.head? = some a) : a ∈ l := by
  cases l with
  | nil => simp at h
  | cons x t =>
    simp only [List.head?_cons, Option.some.injEq] at h
    rw [← h]
    exact List.mem_cons_self x t

theorem processMulti_written_payload (cfg : DLConfig) (sampleData : List PayloadValue) (strKey : String) (subs : List (Option ByteData × Option String)) :
    ∀ eff ∈ (processMulti cfg sampleData strKey subs).2, ∀ m ∈ writtenMetas eff,
      m.payload = strippedPayload cfg sampleData := by
  intro eff heff m hm
  have hres := processSubs_results_payload cfg sampleData (buildMeta cfg sampleData strKey none) subs
  have hse := processSubs_effects cfg sampleData (buildMeta cfg sampleData strKey none) subs
  rw [processMulti] at heff
  simp only [] at heff
  have hsubcase : eff ∈ (processSubs cfg sampleData (buildMeta cfg sampleData strKey none) subs).2.2.1 →
      ∀ m ∈ writtenMetas eff, m.payload = strippedPayload cfg sampleData := by
    intro h m hm
    have := hse eff h
    rw [this] at hm
    simp [writtenMetas] at hm
  split at heff
  · exact absurd hm (by
      rcases List.mem_append.mp heff with h | h
      · have := hse eff h; rw [this]; simp [writtenMetas]
      · simp only [List.mem_singleton] at h; rw [h]; simp [writtenMetas])
  · rcases List.mem_append.mp heff with h | h
    · rcases List.mem_append.mp h with h2 | h2
      · exact hsubcase h2 m hm
      · split at h2
        · split at h2
          · simp only [List.mem_singleton] at h2
            rw [h2] at hm
            simp only [writtenMetas, List.mem_map] at hm
            obtain ⟨entry, hentry, hent2⟩ := hm
            rw [← hent2]
            rw [hres entry hentry]
            rfl
          · split at h2
            · simp only [List.mem_singleton] at h2
              rw [h2] at hm
              simp only [writtenMetas, List.mem_singleton] at hm
              rw [hm]
              rename_i r hfind
              have hrmem := List.mem_of_find?_eq_some hfind
              rw [hres r hrmem]
              rfl
            · simp at h2
        · simp only [List.mem_singleton] at h2
          rw [h2] at hm
          simp only [writtenMetas, List.mem_singleton] at hm
          rw [hm]
          cases hh : (processSubs cfg sampleData (buildMeta cfg sampleData strKey none) subs).2.1.head? with
          | none => rfl
          | some r0 =>
            simp only [Option.map_some', Option.getD_some]
            have hr0 : r0 ∈ (processSubs cfg sampleData (buildMeta cfg sampleData strKey none) subs).2.1 :=
              head?_mem hh
            rw [hres r0 hr0]
            rfl
    · simp only [List.mem_singleton] at h
      rw [h] at hm
      simp [writtenMetas] at hm

theorem processRow_written_payload (cfg : DLConfig) (sampleData : List PayloadValue) (strKey : String) (fr : FetchRes) :
    ∀ eff ∈ (processRow cfg sampleData strKey fr).2, ∀ m ∈ writtenMetas eff,
      m.payload = strippedPayload cfg sampleData := by
  cases fr with
  | single s e => exact processSingle_written_payload cfg sampleData strKey s e
  | multi subs => exact processMulti_written_payload cfg sampleData strKey subs

theorem indexOf?_getElem? {α : Type} [DecidableEq α] (a : α) :
    ∀ (l : List α) (i : Nat), l.indexOf? a = some i → l[i]? = some a := by
  intro l
  induction l with
  | nil => intro i h; simp at h
  | cons x xs ih =>
    intro i h
    rw [List.indexOf?_cons] at h
    by_cases hx : x == a
    · rw [if_pos hx] at h
      have : i = 0 := by simpa using h.symm
      subst this
      simp only [List.getElem?_cons_zero, Option.some.injEq]
      exact eq_of_beq hx
    · rw [if_neg hx] at h
      obtain ⟨j, hj, hji⟩ := Option.map_eq_some'.mp h
      subst hji
      simpa using ih j hj

/-- The stripped payload never echoes the verification-hash column (under
distinct column names). -/
theorem strippedPayload_no_hash_col (cfg : DLConfig) (sampleData : List PayloadValue)
    (vht : String) (i : Nat)
    (hnd : cfg.columnList.Nodup)
    (hv : cfg.verifyHashType = some vht)
    (hi : cfg.columnList.indexOf? vht = some i) :
    ∀ cv ∈ strippedPayload cfg sampleData, cv.1 ≠ vht := by
  intro cv hcv
  rw [strippedPayload] at hcv
  obtain ⟨p, hp, hf⟩ := List.mem_filterMap.mp hcv
  have hhi : hashIndice cfg = some i := by rw [hashIndice, hv]; exact hi
  by_cases hpi : hashIndice cfg = some p.1
  · rw [if_pos hpi] at hf; simp at hf
  · rw [if_neg hpi] at hf
    have hcv2 : p.2 = cv := by simpa using hf
    have hmem := List.mem_enum_iff_getElem?.mp hp
    have hzip := List.getElem?_zip_eq_some.mp hmem
    intro heq
    have hcol : cfg.columnList[p.1]? = some vht := by
      rw [hzip.1, hcv2, heq]
    have hcoli : cfg.columnList[i]? = some vht := indexOf?_getElem? vht cfg.columnList i hi
    have hlt : p.1 < cfg.columnList.length := by
      rcases List.getElem?_eq_some.mp hcol with ⟨h, _⟩
      exact h
    have : p.1 = i := List.getElem?_inj hlt hnd (by rw [hcol, hcoli])
    apply hpi
    rw [hhi, this]

theorem processSub_success_iff (cfg : DLConfig) (sampleData : List PayloadValue) (base : SampleMeta) (sub : Option ByteData × Option String) :
    (processSub cfg sampleData base sub).2.2.2 = (processSub cfg sampleData base sub).2.1.1.isSome := by
  match sub with
  | (s, some e) => rfl
  | (none, none) => rfl
  | (some b, none) =>
    simp only [processSub]
    cases cfg.resizer b (bboxValue cfg sampleData) <;> rfl

theorem processSubs_not_aborted (cfg : DLConfig) (sampleData : List PayloadValue) (base : SampleMeta) :
    ∀ subs, (∀ p ∈ subs, wfPair p) → (processSubs cfg sampleData base subs).2.2.2.2 = false := by
  intro subs
  induction subs with
  | nil => intro _; rfl
  | cons sub rest ih =>
    intro hwf
    have hsub : ¬(sub.1.isNone ∧ sub.2.isNone) := by
      rcases hwf sub (List.mem_cons_self sub rest) with ⟨m, hm⟩ | ⟨b, hm⟩ <;> rw [hm] <;> simp
    simp only [processSubs, if_neg hsub]
    exact ih fun p hp => hwf p (List.mem_cons_of_mem sub hp)

theorem processSubs_results_shape (cfg : DLConfig) (sampleData : List PayloadValue) (base : SampleMeta) :
    ∀ subs, (∀ p ∈ subs, wfPair p) →
      (processSubs cfg sampleData base subs).2.1 = subs.map fun sub => (processSub cfg sampleData base sub).2.1 := by
  intro subs
  induction subs with
  | nil => intro _; rfl
  | cons sub rest ih =>
    intro hwf
    have hsub : ¬(sub.1.isNone ∧ sub.2.isNone) := by
      rcases hwf sub (List.mem_cons_self sub rest) with ⟨m, hm⟩ | ⟨b, hm⟩ <;> rw [hm] <;> simp
    simp only [processSubs, if_neg hsub, List.map_cons, List.cons.injEq]
    exact ⟨trivial, ih fun p hp => hwf p (List.mem_cons_of_mem sub hp)⟩

theorem processSubs_any_success (cfg : DLConfig) (sampleData : List PayloadValue) (base : SampleMeta) :
    ∀ subs, (∀ p ∈ subs, wfPair p) →
      (processSubs cfg sampleData base subs).2.2.2.1 =
        ((processSubs cfg sampleData base subs).2.1.any fun r => r.1.isSome) := by
  intro subs
  induction subs with
  | nil => intro _; rfl
  | cons sub rest ih =>
    intro hwf
    have hsub : ¬(sub.1.isNone ∧ sub.2.isNone) := by
      rcases hwf sub (List.mem_cons_self sub rest) with ⟨m, hm⟩ | ⟨b, hm⟩ <;> rw [hm] <;> simp
    simp only [processSubs, if_neg hsub, List.any_cons]
    rw [ih fun p hp => hwf p (List.mem_cons_of_mem sub hp)]
    rw [processSub_success_iff]

theorem counters_add_total (a b : Counters) : (a.add b).total = a.total + b.total := by
  simp [Counters.add, Counters.total]
  omega

theorem pool_invariant (threadCount : Nat) :
    ∀ s, PoolReachable threadCount s →
      s.processed ≤ s.admitted ∧ s.admitted - s.processed ≤ 2 * threadCount := by
  intro s h
  induction h with
  | refl => simp
  | tail _ hstep ih =>
    cases hstep with
    | acquire hs' => dsimp only at ih ⊢; omega
    | finish hs' => dsimp only at ih ⊢; omega

theorem robotsValueDisallows_iff (ua : Option String) (dis : List String) (v : String) :
    robotsValueDisallows ua dis v = true ↔
      ((parseRobotsValue v).1 = none ∨ (parseRobotsValue v).1 = ua) ∧
        ∃ d ∈ (parseRobotsValue v).2, d ∈ dis := by
  rw [robotsValueDisallows]
  simp only [Bool.and_eq_true, Bool.or_eq_true, Option.isNone_iff_eq_none, beq_iff_eq,
    List.any_eq_true]
  constructor
  · rintro ⟨h1, d, hd, hc⟩
    exact ⟨h1, d, hd, List.elem_iff.mp hc⟩
  · rintro ⟨h1, d, hd, hc⟩
    exact ⟨h1, d, hd, List.elem_iff.mpr hc⟩

theorem is_disallowed_iff (ua : Option String) (dis : List String) :
    ∀ headers, is_disallowed headers ua dis = true ↔
      ∃ v, (some v) ∈ headers ∧ robotsValueDisallows ua dis v = true := by
  intro headers
  induction headers with
  | nil => simp [is_disallowed]
  | cons h rest ih =>
    cases h with
    | none =>
      rw [is_disallowed, ih]
      constructor
      · rintro ⟨v, hv, hd⟩
        exact ⟨v, List.mem_cons_of_mem _ hv, hd⟩
      · rintro ⟨v, hv, hd⟩
        rcases List.mem_cons.mp hv with hv | hv
        · exact absurd hv (by simp)
        · exact ⟨v, hv, hd⟩
    | some v0 =>
      rw [is_disallowed]
      by_cases hd0 : robotsValueDisallows ua dis v0
      · simp only [hd0, if_true, true_iff]
        exact ⟨v0, List.mem_cons_self _ _, hd0⟩
      · simp only [hd0, Bool.false_eq_true, if_false]
        rw [ih]
        constructor
        · rintro ⟨v, hv, hd⟩
          exact ⟨v, List.mem_cons_of_mem _ hv, hd⟩
        · rintro ⟨v, hv, hd⟩
          rcases List.mem_cons.mp hv with hv | hv
          · rw [Option.some.injEq] at hv
            rw [← hv] at hd0
            exact absurd hd hd0
          · exact ⟨v, hv, hd⟩

theorem shardRows_total (cfg : DLConfig) (shardId p q : Nat) (oracle : Nat → Nat → Nat → HttpResult) :
    ∀ rows k, (∀ sd ∈ rows, ∀ us, urlValue cfg sd ≠ PayloadValue.vlist us) →
      ((shardRows cfg shardId p q oracle k rows).1).total = rows.length := by
  intro rows
  induction rows with
  | nil => intro k _; rfl
  | cons sd rest ih =>
    intro k hs
    rw [shardRows]
    simp only []
    rw [counters_add_total]
    have h1 : (processRow cfg sd (compute_key k shardId p q)
        (download_image_with_retry (oracle k) (urlValue cfg sd) cfg.retries cfg.userAgentToken cfg.disallowedHeaderDirectives)).1.total = 1 := by
      cases hu : urlValue cfg sd with
      | vlist us => exact absurd hu (hs sd (List.mem_cons_self sd rest) us)
      | vstr s =>
        exact processSingle_total cfg sd _ _ _
          (downloadSingle_wf (oracle k 0) cfg.retries cfg.userAgentToken cfg.disallowedHeaderDirectives)
      | vnone =>
        exact processSingle_total cfg sd _ _ _
          (downloadSingle_wf (oracle k 0) cfg.retries cfg.userAgentToken cfg.disallowedHeaderDirectives)
      | vother n =>
        exact processSingle_total cfg sd _ _ _
          (downloadSingle_wf (oracle k 0) cfg.retries cfg.userAgentToken cfg.disallowedHeaderDirectives)
    rw [h1, ih (k + 1) fun sd2 h2 => hs sd2 (List.mem_cons_of_mem sd h2)]
    simp [List.length_cons]
    omega

/-! ### Claim theorems -/

/-- C1.  For every shard whose rows all carry a single URL (not a URL list),
after the shard is processed the shard-level counters satisfy
`successes + failed_to_download + failed_to_resize = count`, where `count`
is the number of input rows. -/
theorem shard_counters_partition_single_url
    (cfg : DLConfig) (shardId numberSamplePerShard oomShardCount : Nat)
    (oracle : Nat → Nat → Nat → HttpResult) (rows : List (List PayloadValue))
    (hsingle : ∀ sd ∈ rows, ∀ us, urlValue cfg sd ≠ PayloadValue.vlist us) :
    (shardProcess cfg shardId numberSamplePerShard oomShardCount oracle rows).1.successes +
      (shardProcess cfg shardId numberSamplePerShard oomShardCount oracle rows).1.failedToDownload +
      (shardProcess cfg shardId numberSamplePerShard oomShardCount oracle rows).1.failedToResize =
        rows.length := by
  have := shardRows_total cfg shardId (ceilLog10 numberSamplePerShard) oomShardCount oracle rows 0 hsingle
  rw [Counters.total] at this
  exact this

/-- Example configuration for witnesses: one `url` column, no optional
features, a resizer that always succeeds with a 10×10 image. -/
def exCfg : DLConfig :=
  { columnList := ["url"]
    verifyHashType := none
    computeHash := none
    extractExif := false
    blurringBboxCol := none
    threadCount := 1
    retries := 0
    userAgentToken := none
    disallowedHeaderDirectives := []
    writerHasMulti := true
    resizer := fun b _ => .ok ⟨b, 10, 10, 10, 10⟩
    digest := fun _ _ => "00"
    exifOf := fun _ => none }

theorem shard_counters_partition_single_url_witness :
    (∀ sd ∈ [[PayloadValue.vstr "http"]], ∀ us, urlValue exCfg sd ≠ PayloadValue.vlist us) ∧
    (shardProcess exCfg 3 1000 5 (fun _ _ _ => .exn "timeout") [[PayloadValue.vstr "http"]]).1.successes +
      (shardProcess exCfg 3 1000 5 (fun _ _ _ => .exn "timeout") [[PayloadValue.vstr "http"]]).1.failedToDownload +
      (shardProcess exCfg 3 1000 5 (fun _ _ _ => .exn "timeout") [[PayloadValue.vstr "http"]]).1.failedToResize = 1 := by
  have hs : ∀ sd ∈ [[PayloadValue.vstr "http"]], ∀ us, urlValue exCfg sd ≠ PayloadValue.vlist us := by
    intro sd hsd us h
    simp only [List.mem_singleton] at hsd
    rw [hsd] at h
    exact PayloadValue.noConfusion h
  exact ⟨hs, shard_counters_partition_single_url exCfg 3 1000 5 (fun _ _ _ => .exn "timeout") [[PayloadValue.vstr "http"]] hs⟩

/-- C3.  For a non-empty configured disallowed-directives set, a fetch of an
HTTP response returns the failure
`(None, "Use of image disallowed by X-Robots-Tag directive")` — no payload —
if and only if some `X-Robots-Tag` header value, parsed by splitting at the
first colon (a colon-free value being a directive list with no ua-token,
both sides lowercased, directives comma-split and stripped), has a ua-token
that is absent or equal to the configured token and a directive list meeting
the disallowed set; a value whose parsing raises is skipped without aborting
the fetch. -/
theorem robots_tag_disallow_iff
    (headers : List (Option String)) (body : ByteData)
    (ua : Option String) (dis : List String) (hne : dis ≠ []) :
    (download_image (.resp headers body) ua dis = (none, some robotsDisallowMsg) ↔
      ∃ v, (some v) ∈ headers ∧
        ((parseRobotsValue v).1 = none ∨ (parseRobotsValue v).1 = ua) ∧
        ∃ d ∈ (parseRobotsValue v).2, d ∈ dis) ∧
    (∀ hs : List (Option String), is_disallowed (none :: hs) ua dis = is_disallowed hs ua dis) := by
  refine ⟨?_, fun hs => rfl⟩
  have hne' : dis.isEmpty = false := by
    cases dis with
    | nil => exact absurd rfl hne
    | cons d ds => rfl
  rw [download_image]
  constructor
  · intro h
    by_cases hd : is_disallowed headers ua dis
    · obtain ⟨v, hv, hdis⟩ := (is_disallowed_iff ua dis headers).mp hd
      obtain ⟨h1, h2⟩ := (robotsValueDisallows_iff ua dis v).mp hdis
      exact ⟨v, hv, h1, h2⟩
    · exfalso
      rw [if_neg (by simp [hne', hd])] at h
      simp at h
  · rintro ⟨v, hv, h1, h2⟩
    have hdis : is_disallowed headers ua dis = true :=
      (is_disallowed_iff ua dis headers).mpr ⟨v, hv, (robotsValueDisallows_iff ua dis v).mpr ⟨h1, h2⟩⟩
    rw [if_pos (by simp [hne', hdis])]

theorem robots_tag_disallow_iff_witness :
    ((["noai"] : List String) ≠ []) ∧
    (download_image (.resp [none, some "MyBot: noAI, noimageai"] [7]) (some "mybot") ["noai"] =
        (none, some robotsDisallowMsg) ↔
      ∃ v, (some v) ∈ [none, some "MyBot: noAI, noimageai"] ∧
        ((parseRobotsValue v).1 = none ∨ (parseRobotsValue v).1 = some "mybot") ∧
        ∃ d ∈ (parseRobotsValue v).2, d ∈ ["noai"]) := by
  refine ⟨by decide, (robots_tag_disallow_iff [none, some "MyBot: noAI, noimageai"] [7] (some "mybot") ["noai"] (by decide)).1⟩

/-- C4.  For every single-URL row, `download_image_with_retry` attempts the
fetch at most `retries + 1` times, returns the payload of the first
successful attempt, and after `retries + 1` consecutive failures returns the
error of the last attempt; a fetch result that failed every attempt is
post-processed into a `failed_to_download` record. -/
theorem single_url_retry_semantics
    (attempt : Nat → HttpResult) (retries : Nat) (ua : Option String) (dis : List String) :
    ((downloadSingleWithRetry attempt retries ua dis).1 ≤ retries + 1) ∧
    (∀ k, k ≤ retries →
      (∀ j, j < k → (download_image (attempt j) ua dis).1 = none) →
      (download_image (attempt k) ua dis).1.isSome →
      downloadSingleWithRetry attempt retries ua dis = (k + 1, download_image (attempt k) ua dis)) ∧
    ((∀ j, j ≤ retries → (download_image (attempt j) ua dis).1 = none) →
      downloadSingleWithRetry attempt retries ua dis =
        (retries + 1, download_image (attempt retries) ua dis)) ∧
    (∀ (cfg : DLConfig) (sampleData : List PayloadValue) (strKey msg : String),
      (processSingle cfg sampleData strKey none (some msg)).1 = ⟨0, 1, 0⟩ ∧
      (processSingle cfg sampleData strKey none (some msg)).2 =
        [.write none strKey (captionValue cfg sampleData)
          { buildMeta cfg sampleData strKey (some msg) with status := some "failed_to_download" },
         .release]) := by
  refine ⟨retryLoop_calls_le _ retries 0, ?_, ?_, ?_⟩
  · intro k hk hfail hsucc
    have := retryLoop_first_success (fun i => download_image (attempt i) ua dis) retries 0 k hk
      (fun j hj => by simpa using hfail j hj) (by simpa using hsucc)
    simpa [downloadSingleWithRetry] using this
  · intro hfail
    have := retryLoop_all_fail (fun i => download_image (attempt i) ua dis) retries 0
      (fun j h1 h2 => hfail j (by omega))
    simpa [downloadSingleWithRetry] using this
  · intro cfg sampleData strKey msg
    exact ⟨rfl, rfl⟩

theorem single_url_retry_semantics_witness :
    (∀ j, j ≤ 2 → (download_image ((fun _ => .exn "timed out") j) none []).1 = none) ∧
    downloadSingleWithRetry (fun _ => .exn "timed out") 2 none [] =
      (3, download_image (.exn "timed out") none []) :=
  ⟨fun j _ => rfl,
   (single_url_retry_semantics (fun _ => .exn "timed out") 2 none []).2.2.1 fun j _ => rfl⟩

/-- C10.  For every row whose url field is a list with no non-null elements,
the retry wrapper returns the empty sub-result list, and exactly one record
is written for the row: its meta is the base meta, whose `status` and
`error_message` are both null (in particular `status` is none of the three
terminal keywords), and no outcome counter changes. -/
theorem empty_url_list_null_record
    (cfg : DLConfig) (oracle : Nat → Nat → HttpResult) (urls : List (Option String))
    (sampleData : List PayloadValue) (strKey : String)
    (hnull : ∀ u ∈ urls, u = none) :
    downloadListWithRetry oracle urls cfg.retries cfg.userAgentToken cfg.disallowedHeaderDirectives = [] ∧
    processRow cfg sampleData strKey (.multi []) =
      (Counters.zero,
       [.write none strKey (captionValue cfg sampleData) (buildMeta cfg sampleData strKey none),
        .release]) ∧
    (buildMeta cfg sampleData strKey none).status = none ∧
    (buildMeta cfg sampleData strKey none).errorMessage = none ∧
    (∀ st : String, (buildMeta cfg sampleData strKey none).status ≠ some st) := by
  refine ⟨?_, rfl, rfl, rfl, fun st h => Option.noConfusion h⟩
  rw [downloadListWithRetry, List.filterMap_eq_nil]
  intro ju hju
  have : ju.2 = none := by
    have hm := List.mem_enum_iff_getElem?.mp hju
    have : ju.2 ∈ urls := by
      rcases List.getElem?_eq_some.mp hm with ⟨h, hg⟩
      rw [← hg]
      exact List.getElem_mem h
    exact hnull ju.2 this
  rw [this]
  rfl

theorem empty_url_list_null_record_witness :
    (∀ u ∈ ([none, none] : List (Option String)), u = none) ∧
    downloadListWithRetry (fun _ _ => .exn "e") [none, none] exCfg.retries exCfg.userAgentToken exCfg.disallowedHeaderDirectives = [] ∧
    processRow exCfg [PayloadValue.vstr "u"] "key" (.multi []) =
      (Counters.zero,
       [.write none "key" (captionValue exCfg [PayloadValue.vstr "u"]) (buildMeta exCfg [PayloadValue.vstr "u"] "key" none),
        .release]) := by
  have hn : ∀ u ∈ ([none, none] : List (Option String)), u = none := by
    intro u hu
    rcases List.mem_cons.mp hu with h | h
    · exact h
    · simpa using h
  have := empty_url_list_null_record exCfg (fun _ _ => .exn "e") [none, none] [PayloadValue.vstr "u"] "key" hn
  exact ⟨hn, this.1, this.2.1⟩

/-- C2.  For a single-URL row with a configured verification-hash type whose
column is present in the payload: the digest of the fetched body is compared
to the payload value before the `Resizer` is ever invoked; on mismatch the
record gets `status = failed_to_download` and
`error_message = "hash mismatch"` and the `Resizer` is not called; and in
every record written for any fetch result of this row, the
verification-hash column is absent from the echoed payload columns. -/
theorem hash_mismatch_short_circuits_and_strips
    (cfg : DLConfig) (sampleData : List PayloadValue) (strKey : String) (b : ByteData)
    (vht : String) (i : Nat)
    (hv : cfg.verifyHashType = some vht)
    (hi : cfg.columnList.indexOf? vht = some i)
    (hnd : cfg.columnList.Nodup)
    (hmm : (sampleData.get? i).getD PayloadValue.vnone ≠ PayloadValue.vstr (cfg.digest vht b)) :
    processSingle cfg sampleData strKey (some b) none =
      (⟨0, 1, 0⟩,
       [.verifyDigest,
        .write none strKey (captionValue cfg sampleData)
          { buildMeta cfg sampleData strKey none with
              status := some "failed_to_download", errorMessage := some "hash mismatch" },
        .release]) ∧
    RowEffect.resize ∉ (processSingle cfg sampleData strKey (some b) none).2 ∧
    (∀ s e, RowEffect.resize ∈ (processSingle cfg sampleData strKey s e).2 →
      ∃ pre post, (processSingle cfg sampleData strKey s e).2 = pre ++ RowEffect.resize :: post ∧
        RowEffect.verifyDigest ∈ pre) ∧
    (∀ fr : FetchRes, ∀ eff ∈ (processRow cfg sampleData strKey fr).2, ∀ m ∈ writtenMetas eff,
      ∀ v, (vht, v) ∉ m.payload) := by
  have hmain : processSingle cfg sampleData strKey (some b) none =
      (⟨0, 1, 0⟩,
       [.verifyDigest,
        .write none strKey (captionValue cfg sampleData)
          { buildMeta cfg sampleData strKey none with
              status := some "failed_to_download", errorMessage := some "hash mismatch" },
        .release]) := by
    simp only [processSingle, hv, hi, if_pos hmm]
  refine ⟨hmain, ?_, ?_, ?_⟩
  · rw [hmain]
    simp
  · intro s e hres
    match e with
    | some m =>
      exfalso
      simp only [processSingle] at hres
      simp at hres
    | none =>
      match s with
      | none =>
        exfalso
        simp only [processSingle] at hres
        simp at hres
      | some b' =>
        simp only [processSingle, hv, hi] at hres ⊢
        by_cases hcond : (sampleData.get? i).getD PayloadValue.vnone ≠ PayloadValue.vstr (cfg.digest vht b')
        · rw [if_pos hcond] at hres
          simp at hres
        · rw [if_neg hcond] at hres ⊢
          rw [resizeStage] at hres ⊢
          cases cfg.resizer b' (bboxValue cfg sampleData) with
          | error er =>
            exact ⟨[.verifyDigest], _, rfl, List.mem_singleton.mpr rfl⟩
          | ok r =>
            exact ⟨[.verifyDigest], _, rfl, List.mem_singleton.mpr rfl⟩
  · intro fr eff heff m hm v hvin
    have hp := processRow_written_payload cfg sampleData strKey fr eff heff m hm
    rw [hp] at hvin
    exact strippedPayload_no_hash_col cfg sampleData vht i hnd hv hi (vht, v) hvin rfl

/-- Example configuration with a verification-hash column for witnesses. -/
def exCfgHash : DLConfig :=
  { exCfg with columnList := ["url", "md5"], verifyHashType := some "md5" }

theorem hash_mismatch_short_circuits_and_strips_witness :
    (exCfgHash.verifyHashType = some "md5") ∧
    (exCfgHash.columnList.indexOf? "md5" = some 1) ∧
    (([PayloadValue.vstr "u", PayloadValue.vstr "deadbeef"].get? 1).getD PayloadValue.vnone ≠
      PayloadValue.vstr (exCfgHash.digest "md5" [1])) ∧
    processSingle exCfgHash [PayloadValue.vstr "u", PayloadValue.vstr "deadbeef"] "k" (some [1]) none =
      (⟨0, 1, 0⟩,
       [.verifyDigest,
        .write none "k" (captionValue exCfgHash [PayloadValue.vstr "u", PayloadValue.vstr "deadbeef"])
          { buildMeta exCfgHash [PayloadValue.vstr "u", PayloadValue.vstr "deadbeef"] "k" none with
              status := some "failed_to_download", errorMessage := some "hash mismatch" },
        .release]) := by
  refine ⟨rfl, by decide, by decide, ?_⟩
  exact (hash_mismatch_short_circuits_and_strips exCfgHash
    [PayloadValue.vstr "u", PayloadValue.vstr "deadbeef"] "k" [1] "md5" 1 rfl (by decide) (by decide) (by decide)).1

theorem filterMap_opt_eq_filter_map {α β : Type} (g : Nat → β) :
    ∀ l : List (Nat × Option α),
      (l.filterMap fun ju => ju.2.map fun _ => g ju.1) =
        (l.filter fun ju => ju.2.isSome).map fun ju => g ju.1 := by
  intro l
  induction l with
  | nil => rfl
  | cons x xs ih =>
    rcases x with ⟨j, u⟩
    cases u
    · simpa [List.filterMap_cons, List.filter_cons] using ih
    · simpa [List.filterMap_cons, List.filter_cons] using ih

/-- C5.  For a row whose url is a list: null elements are elided and each
non-null element is fetched independently with up to `retries + 1` attempts,
the sub-results appearing in the input order of the non-null URLs; for
well-formed sub-results the processed sub-outcomes are one per sub-result in
order, and the aggregation writes `write_multi_images` with the full ordered
list when some sub-outcome succeeded and the writer has that method, writes
only the first successful `(img, sub_meta)` when it does not, and writes
exactly one failure record with the first sub-outcome's meta (or the base
meta when the list is empty) when no sub-outcome succeeded. -/
theorem list_url_fetch_and_aggregation
    (cfg : DLConfig) (oracle : Nat → Nat → HttpResult) (urls : List (Option String))
    (sampleData : List PayloadValue) (strKey : String) :
    (downloadListWithRetry oracle urls cfg.retries cfg.userAgentToken cfg.disallowedHeaderDirectives =
      (urls.enum.filter fun ju => ju.2.isSome).map fun ju =>
        (retryLoop (fun i => download_image (oracle ju.1 i) cfg.userAgentToken cfg.disallowedHeaderDirectives) 0 cfg.retries).2) ∧
    (∀ j, (retryLoop (fun i => download_image (oracle j i) cfg.userAgentToken cfg.disallowedHeaderDirectives) 0 cfg.retries).1 ≤ cfg.retries + 1) ∧
    (∀ subs : List (Option ByteData × Option String), (∀ p ∈ subs, wfPair p) →
      (processSubs cfg sampleData (buildMeta cfg sampleData strKey none) subs).2.1 =
        subs.map (fun sub => (processSub cfg sampleData (buildMeta cfg sampleData strKey none) sub).2.1) ∧
      (processMulti cfg sampleData strKey subs).2 =
        (processSubs cfg sampleData (buildMeta cfg sampleData strKey none) subs).2.2.1 ++
          (if (processSubs cfg sampleData (buildMeta cfg sampleData strKey none) subs).2.1.any (fun r => r.1.isSome) then
            if cfg.writerHasMulti then
              [.writeMulti (processSubs cfg sampleData (buildMeta cfg sampleData strKey none) subs).2.1 strKey (captionValue cfg sampleData)]
            else
              match (processSubs cfg sampleData (buildMeta cfg sampleData strKey none) subs).2.1.find? (fun r => r.1.isSome) with
              | some r => [.write r.1 strKey (captionValue cfg sampleData) r.2]
              | none => []
          else
            [.write none strKey (captionValue cfg sampleData)
              (((processSubs cfg sampleData (buildMeta cfg sampleData strKey none) subs).2.1.head?.map fun r => r.2).getD
                (buildMeta cfg sampleData strKey none))]) ++
          [.release]) := by
  refine ⟨?_, fun j => retryLoop_calls_le _ cfg.retries 0, ?_⟩
  · rw [downloadListWithRetry]
    exact filterMap_opt_eq_filter_map
      (fun j => (retryLoop (fun i => download_image (oracle j i) cfg.userAgentToken cfg.disallowedHeaderDirectives) 0 cfg.retries).2)
      urls.enum
  · intro subs hwf
    have hab := processSubs_not_aborted cfg sampleData (buildMeta cfg sampleData strKey none) subs hwf
    have hany := processSubs_any_success cfg sampleData (buildMeta cfg sampleData strKey none) subs hwf
    refine ⟨processSubs_results_shape cfg sampleData (buildMeta cfg sampleData strKey none) subs hwf, ?_⟩
    rw [processMulti]
    simp only [hab, Bool.false_eq_true, if_false, hany]

/-- Attempt oracle for the C5 witness: URL 0 succeeds at once, URL 2 always
raises. -/
def exOracle : Nat → Nat → HttpResult :=
  fun j _ => if j = 0 then .resp [] [1] else .exn "err"

theorem list_url_fetch_and_aggregation_witness :
    (∀ p ∈ ([(some [1], none), (none, some "err")] : List (Option ByteData × Option String)), wfPair p) ∧
    (downloadListWithRetry exOracle [some "a", none, some "b"] exCfg.retries exCfg.userAgentToken exCfg.disallowedHeaderDirectives =
      (([some "a", none, some "b"] : List (Option String)).enum.filter fun ju => ju.2.isSome).map fun ju =>
        (retryLoop (fun i => download_image (exOracle ju.1 i) exCfg.userAgentToken exCfg.disallowedHeaderDirectives) 0 exCfg.retries).2) ∧
    (processSubs exCfg [PayloadValue.vstr "u"] (buildMeta exCfg [PayloadValue.vstr "u"] "k" none) [(some [1], none), (none, some "err")]).2.1 =
      ([(some [1], none), (none, some "err")] : List (Option ByteData × Option String)).map
        (fun sub => (processSub exCfg [PayloadValue.vstr "u"] (buildMeta exCfg [PayloadValue.vstr "u"] "k" none) sub).2.1) := by
  have hwf : ∀ p ∈ ([(some [1], none), (none, some "err")] : List (Option ByteData × Option String)), wfPair p := by
    intro p hp
    rcases List.mem_cons.mp hp with h | h
    · exact .inr ⟨[1], h⟩
    · rcases List.mem_cons.mp h with h2 | h2
      · exact .inl ⟨"err", h2⟩
      · simp at h2
  have h := list_url_fetch_and_aggregation exCfg exOracle [some "a", none, some "b"] [PayloadValue.vstr "u"] "k"
  exact ⟨hwf, h.1, (h.2.2 [(some [1], none), (none, some "err")] hwf).1⟩

/-- C6.  For every admitted row the backpressure-semaphore permit is released
exactly once after the row's post-processing terminates, on every path —
normal completion, each early short-circuit branch, and a per-row exception
raised at any external interaction; and in the semaphore transition system
the number of rows admitted but not yet post-processed never exceeds
`2 * thread_count`. -/
theorem semaphore_release_exactly_once_and_bound :
    (∀ (cfg : DLConfig) (sampleData : List PayloadValue) (strKey : String) (fr : FetchRes) (n : Option Nat),
      (n = none ∨ ∃ k, n = some k ∧ validRaise (processRow cfg sampleData strKey fr).2 k) →
      releaseCount (runWithRaise (processRow cfg sampleData strKey fr).2 n) = 1) ∧
    (∀ (threadCount : Nat) (s : PoolState), PoolReachable threadCount s →
      s.admitted - s.processed ≤ 2 * threadCount) := by
  constructor
  · intro cfg sampleData strKey fr n hn
    obtain ⟨t, ht, h0⟩ := processRow_trace cfg sampleData strKey fr
    exact runWithRaise_release_once _ t ht h0 n hn
  · intro T s h
    exact (pool_invariant T s h).2

theorem semaphore_release_exactly_once_and_bound_witness :
    releaseCount (runWithRaise (processRow exCfg [PayloadValue.vstr "u"] "k" (.single none (some "e"))).2 none) = 1 ∧
    (⟨2, 0⟩ : PoolState).admitted - (⟨2, 0⟩ : PoolState).processed ≤ 2 * 1 := by
  constructor
  · exact semaphore_release_exactly_once_and_bound.1 exCfg [PayloadValue.vstr "u"] "k" (.single none (some "e")) none (.inl rfl)
  · refine semaphore_release_exactly_once_and_bound.2 1 ⟨2, 0⟩ ?_
    have s1 : PoolStep 1 ⟨0, 0⟩ ⟨1, 0⟩ := PoolStep.acquire ⟨0, 0⟩ (by decide)
    have s2 : PoolStep 1 ⟨1, 0⟩ ⟨2, 0⟩ := PoolStep.acquire ⟨1, 0⟩ (by decide)
    exact Relation.ReflTransGen.tail (Relation.ReflTransGen.tail Relation.ReflTransGen.refl s1) s2

/-- C7.  For every nonnegative `shard_id` and `row_index` the global key is
the decimal representation of `shard_id * 10 ^ p + row_index` zero-padded to
width `p + q`, where `p = ceil(log10(samples_per_shard))` (characterised
exactly as the least `p` with `samples_per_shard ≤ 10 ^ p`) and `q` is the
configured shard-count order of magnitude; whenever the value fits in
`p + q` digits (and the width is positive) the key has exactly `p + q`
characters. -/
theorem compute_key_zero_pad_spec
    (rowIndex shardId numberSamplePerShard oomShardCount : Nat) :
    (compute_key rowIndex shardId (ceilLog10 numberSamplePerShard) oomShardCount =
      zero_pad (String.mk (decimalRepChars (10 ^ ceilLog10 numberSamplePerShard * shardId + rowIndex)))
        (ceilLog10 numberSamplePerShard + oomShardCount)) ∧
    (1 ≤ numberSamplePerShard →
      numberSamplePerShard ≤ 10 ^ ceilLog10 numberSamplePerShard ∧
      ∀ p, p < ceilLog10 numberSamplePerShard → 10 ^ p < numberSamplePerShard) ∧
    (0 < ceilLog10 numberSamplePerShard + oomShardCount →
      10 ^ ceilLog10 numberSamplePerShard * shardId + rowIndex <
        10 ^ (ceilLog10 numberSamplePerShard + oomShardCount) →
      (compute_key rowIndex shardId (ceilLog10 numberSamplePerShard) oomShardCount).length =
        ceilLog10 numberSamplePerShard + oomShardCount) := by
  refine ⟨?_, fun h => ceilLog10_spec numberSamplePerShard h, ?_⟩
  · rw [compute_key, zero_pad]
    simp only [String.length_mk]
    rw [decChars_eq_decimalRep]
    rfl
  · intro hpos hlt
    rw [compute_key]
    simp only [String.length_mk, zeroPadChars, List.length_append, List.length_replicate]
    rw [decChars_eq_decimalRep]
    have hle := decimalRep_length_le hpos hlt
    omega

theorem compute_key_zero_pad_spec_witness :
    (1 ≤ 1000 ∧ (0 < ceilLog10 1000 + 5 ∧ 10 ^ ceilLog10 1000 * 3 + 7 < 10 ^ (ceilLog10 1000 + 5))) ∧
    (1000 ≤ 10 ^ ceilLog10 1000 ∧ ∀ p, p < ceilLog10 1000 → 10 ^ p < 1000) ∧
    (compute_key 7 3 (ceilLog10 1000) 5).length = ceilLog10 1000 + 5 := by
  refine ⟨⟨by decide, by decide, by decide⟩, ?_, ?_⟩
  · exact (compute_key_zero_pad_spec 7 3 1000 5).2.1 (by decide)
  · exact (compute_key_zero_pad_spec 7 3 1000 5).2.2 (by decide) (by decide)

/-- C8 (counterexample).  With `shard_id = 3`, `samples_per_shard = 1000`
(so `p = 3`), `q = 5` and `row_index = 7`, the key formatter does not
produce `"0000300007"`. -/
theorem happy_single_key_counterexample :
    compute_key 7 3 (ceilLog10 1000) 5 ≠ "0000300007" := by decide

/-- C8 (amended).  For the input `shard_id = 3`, `samples_per_shard = 1000`,
`q = 5`, `row_index = 7`, the key formatter produces the string
`"00003007"` (width `p + q = 3 + 5 = 8`). -/
theorem happy_single_key_value :
    compute_key 7 3 (ceilLog10 1000) 5 = "00003007" := by decide

/-- C9.  `download_shard` deletes the source shard file only after the writer
is closed and the stats file is emitted: when the run succeeds all steps
complete in program order; if the shard file was removed then every step —
in particular `closeWriter` and `writeStats` — completed before it; on a
pipeline- or writer-level exception the call returns `ok = false` and the
shard file is not removed; and there is a failing run in which the stats
write never happened. -/
theorem shard_cleanup_order_and_abort :
    (∀ fails : ShardOp → Bool,
      ((downloaderCall fails).2 = true → (downloaderCall fails).1 = downloadShardOps) ∧
      (ShardOp.removeShard ∈ (downloaderCall fails).1 →
        (downloaderCall fails).1 = downloadShardOps ∧
        ShardOp.closeWriter ∈ (downloaderCall fails).1 ∧
        ShardOp.writeStats ∈ (downloaderCall fails).1) ∧
      ((downloaderCall fails).2 = false → ShardOp.removeShard ∉ (downloaderCall fails).1)) ∧
    (∃ fails : ShardOp → Bool,
      (downloaderCall fails).2 = false ∧ ShardOp.writeStats ∉ (downloaderCall fails).1) := by
  constructor
  · intro fails
    by_cases h1 : fails .openShard <;>
      by_cases h2 : fails .readTable <;>
      by_cases h3 : fails .createWriter <;>
      by_cases h4 : fails .processRows <;>
      by_cases h5 : fails .closeWriter <;>
      by_cases h6 : fails .writeStats <;>
      by_cases h7 : fails .removeShard <;>
      simp [downloaderCall, runOps, downloadShardOps, h1, h2, h3, h4, h5, h6, h7]
  · exact ⟨fun op => op == ShardOp.writeStats, by decide, by decide⟩

theorem shard_cleanup_order_and_abort_witness :
    ((downloaderCall fun _ => false).2 = true) ∧
    (downloaderCall fun _ => false).1 = downloadShardOps ∧
    ((downloaderCall fun op => op == ShardOp.closeWriter).2 = false) ∧
    ShardOp.removeShard ∉ (downloaderCall fun op => op == ShardOp.closeWriter).1 := by
  refine ⟨by decide, ?_, by decide, ?_⟩
  · exact (shard_cleanup_order_and_abort.1 fun _ => false).1 (by decide)
  · exact (shard_cleanup_order_and_abort.1 fun op => op == ShardOp.closeWriter).2.2 (by decide)
